import Mathlib

/-!
Verification of the nodetool audio node library against its specification.
The Python nodes are shallowly embedded: numeric buffers become `List ℚ`,
`List ℝ` or `List ℤ`, pydantic field validation becomes `Option`-returning
constructors, and value errors become `Except`.
-/

/- ===================== Definitions ===================== -/

/-- A pydantic integer field constraint: optional `ge` lower bound and
optional `le` upper bound, as declared with `Field(..., ge=..., le=...)`. -/
structure FieldBounds where
  lo : Option Int
  hi : Option Int

/-- Whether `n` satisfies the declared bounds. -/
def withinBounds (b : FieldBounds) (n : Int) : Bool :=
  (match b.lo with | some l => decide (l ≤ n) | none => true) &&
  (match b.hi with | some h => decide (n ≤ h) | none => true)

/-- Pydantic construction of an integer field: succeeds with the value when
the bounds hold, fails otherwise. -/
def validateField (b : FieldBounds) (n : Int) : Option Int :=
  if withinBounds b n then some n else none

/-- Bounds of `SpectralCentroid.n_fft`: `Field(default=2048, ge=128, le=8192)`. -/
def spectralCentroid_n_fft : FieldBounds := ⟨some 128, some 8192⟩

/-- Bounds of `SpectralCentroid.hop_length`: `Field(default=512, ge=64, le=2048)`. -/
def spectralCentroid_hop_length : FieldBounds := ⟨some 64, some 2048⟩

/-- Bounds of `ChromaSTFT.n_fft`: `Field(default=2048, ge=0)`. -/
def chromaSTFT_n_fft : FieldBounds := ⟨some 0, none⟩

/-- Bounds of `STFT.n_fft`: `Field(default=2048, ge=0)`. -/
def stft_n_fft : FieldBounds := ⟨some 0, none⟩

/-- `np.min` over a buffer (caller guarantees nonempty, as numpy does). -/
def listMin {α : Type} [LinearOrder α] [Zero α] : List α → α
  | [] => 0
  | x :: xs => xs.foldl min x

/-- `np.max` over a buffer (caller guarantees nonempty, as numpy does). -/
def listMax {α : Type} [LinearOrder α] [Zero α] : List α → α
  | [] => 0
  | x :: xs => xs.foldl max x

/-- The normalization step of `PlotSpectrogram.process`:
`spec_normalized = spec - np.min(spec)` followed by
`if np.max(spec_normalized) > 0: spec_normalized = spec_normalized / np.max(spec_normalized) * 255`. -/
def plotNormalize (spec : List ℚ) : List ℚ :=
  let mn := listMin spec
  let shifted := spec.map (fun x => x - mn)
  let mx := listMax shifted
  if 0 < mx then shifted.map (fun x => x / mx * 255) else shifted

/-- The `astype(np.uint8)` cast in `PlotSpectrogram.process`: truncation of a
non-negative value composed with reduction modulo 256. -/
def castUint8 (q : ℚ) : ℤ := ⌊q⌋ % 256

/-- The pixel array built by `PlotSpectrogram.process` before image encoding. -/
def specImage (spec : List ℚ) : List ℤ :=
  (plotNormalize spec).map castUint8

/-- `STFT.process` after the external `librosa.stft` call: the node returns
`NPArray.from_numpy(np.abs(stft_matrix))`. The complex STFT matrix itself is
produced by the external library (out of scope per the spec), so it is
modelled as an arbitrary complex matrix. -/
noncomputable def stftAbs (stftMatrix : List (List ℂ)) : List (List ℝ) :=
  stftMatrix.map (fun row => row.map (fun z => Complex.abs z))

/-- Base-10 logarithm, the semantics of `np.log10`. -/
noncomputable def log10 (x : ℝ) : ℝ := Real.logb 10 x

/-- One entry of `librosa.power_to_db(S, ref, amin, top_db)` before the
`top_db` clipping step:
`10 * log10(maximum(amin, S)) - 10 * log10(maximum(amin, ref))`. -/
noncomputable def powerToDbElem (amin ref p : ℝ) : ℝ :=
  10 * log10 (max amin p) - 10 * log10 (max amin ref)

/-- `librosa.power_to_db(P, ref, amin, top_db=80)`: the elementwise dB
conversion followed by the final clipping step
`log_spec = np.maximum(log_spec, log_spec.max() - top_db)`. -/
noncomputable def powerToDbList (amin ref : ℝ) (P : List ℝ) : List ℝ :=
  (P.map (powerToDbElem amin ref)).map
    (fun v => max v (listMax (P.map (powerToDbElem amin ref)) - 80))

/-- `librosa.amplitude_to_db(S, ref=np.max)` as called by
`AmplitudeToDB.process`: with magnitude = |S| and ref_value = max |S|, it
returns `power_to_db(magnitude**2, ref=ref_value**2, amin=(1e-5)**2,
top_db=80)`. -/
noncomputable def amplitudeToDb (S : List ℝ) : List ℝ :=
  powerToDbList ((1 / 100000) ^ 2) ((listMax (S.map (fun x => |x|))) ^ 2)
    (S.map (fun x => (|x|) ^ 2))

/-- One entry of `librosa.db_to_power(S_db, ref)`: `ref * 10 ** (0.1 * S_db)`. -/
noncomputable def dbToPowerElem (ref v : ℝ) : ℝ := ref * (10 : ℝ) ^ ((1 / 10) * v)

/-- One entry of `librosa.db_to_amplitude(S_db)` as called by
`DBToAmplitude.process`: `db_to_power(S_db, ref=1**2) ** 0.5`. -/
noncomputable def dbToAmplitudeElem (v : ℝ) : ℝ := dbToPowerElem 1 v ^ ((1 : ℝ) / 2)

/-- `DBToAmplitude.process` applied entrywise to a dB tensor. -/
noncomputable def dbToAmplitude (db : List ℝ) : List ℝ := db.map dbToAmplitudeElem

/-- Conversion of an onset timestamp (seconds) to a sample index,
`int(t * sample_rate)` for non-negative timestamps. -/
def onsetSampleIndex (sr : ℕ) (t : ℚ) : ℕ := Int.toNat ⌊t * (sr : ℚ)⌋

/-- Modelled from the spec: the implementation of
`lib.librosa.segmentation.SegmentAudioByOnsets.process` is not among the
sources (only its DSL declaration and its tests are). Per §4.3, the node
converts onset timestamps to sample-index boundaries and slices the buffer
between consecutive boundaries, the final slice running from the last
boundary to the end of the buffer. -/
def rawSegments (samples : List ℤ) (sr : ℕ) (onsets : List ℚ) : List (List ℤ) :=
  let bs := onsets.map (onsetSampleIndex sr)
  (List.range bs.length).map (fun i =>
    let start := bs.getD i 0
    let stop := if i + 1 < bs.length then bs.getD (i + 1) 0 else samples.length
    (samples.drop start).take (stop - start))

/-- Duration of a segment in seconds: sample count over sample rate. -/
def segmentDuration (sr : ℕ) (seg : List ℤ) : ℚ := (seg.length : ℚ) / (sr : ℚ)

/-- Modelled from the spec: the filtering step of `SegmentAudioByOnsets`
(implementation not among the sources) — segments shorter than
`min_segment_length` seconds are dropped. -/
def segmentAudioByOnsets (samples : List ℤ) (sr : ℕ) (onsets : List ℚ)
    (minLen : ℚ) : List (List ℤ) :=
  (rawSegments samples sr onsets).filter
    (fun seg => decide (minLen ≤ segmentDuration sr seg))

/-- Length in samples of one envelope phase: the time-in-seconds parameter
multiplied by the sample rate, clipped to the buffer length (spec §4.2). -/
def phaseLen (t : ℚ) (sr n : ℕ) : ℕ := min (Int.toNat ⌊t * (sr : ℚ)⌋) n

/-- A linear amplitude ramp of `k` samples from `a` to `b` (`np.linspace`). -/
def ramp (a b : ℚ) (k : ℕ) : List ℚ :=
  (List.range k).map
    (fun i : ℕ => if k ≤ 1 then a else a + (b - a) * (i : ℚ) / ((k : ℚ) - 1))

/-- Modelled from the spec: the implementation of `lib.synthesis.Envelope` is
not among the sources (only its DSL declaration and its tests are). Per §4.2,
attack ramps 0 to peak, decay ramps peak to a sustain-equivalent level, and
release ramps the remaining amplitude to 0; the sustain-equivalent level is
not pinned down by the spec and is kept as a parameter `sustain`. -/
def envelopeCore (n sr : ℕ) (attack decay release peak sustain : ℚ) : List ℚ :=
  ramp 0 peak (phaseLen attack sr n) ++
  ramp peak sustain (phaseLen decay sr n) ++
  ramp sustain 0 (phaseLen release sr n)

/-- Modelled from the spec: the concatenated envelope phases; if shorter than
the source buffer the remainder is held at the last computed gain (§4.2). -/
def envelopeGain (n sr : ℕ) (attack decay release peak sustain : ℚ) : List ℚ :=
  let core := envelopeCore n sr attack decay release peak sustain
  (core ++ List.replicate (n - core.length) (core.getLastD 0)).take n

/-- Modelled from the spec: `Envelope.process` shapes the input buffer by the
envelope gain, sample by sample. -/
def envelopeProcess (samples : List ℚ) (sr : ℕ)
    (attack decay release peak sustain : ℚ) : List ℚ :=
  samples.zipWith (fun s g => s * g)
    (envelopeGain samples.length sr attack decay release peak sustain)

/-- Modelled from the spec: the implementation of
`lib.audio.transform.StereoToMono` is not among the sources (only its tests
are). Per §4.4 and §7, the channel-reduction method is one of
average/left/right and an unrecognized method name raises a value error. -/
def stereoToMono (leftCh rightCh : List ℚ) (method : String) :
    Except String (List ℚ) :=
  if method = "average" then
    Except.ok (List.zipWith (fun l r => (l + r) / 2) leftCh rightCh)
  else if method = "left" then Except.ok leftCh
  else if method = "right" then Except.ok rightCh
  else Except.error "Invalid method. Use average, left, or right."

/-- Whether an `Except` result is a success. -/
def exceptIsOk {ε α : Type} : Except ε α → Bool
  | Except.ok _ => true
  | Except.error _ => false

/-- An audio reference handle: `none` models an empty `AudioRef` (no uri, no
asset id, no data), `some` carries the decoded sample buffer it resolves to. -/
structure AudioRefM where
  data : Option (List ℚ)
deriving DecidableEq

/-- `AudioRef.is_empty`: an audio reference with nothing to resolve. -/
def AudioRefM.is_empty (a : AudioRefM) : Bool := a.data.isNone

/-- Decoding an audio reference through the processing context. -/
def decodeAudio (a : AudioRefM) : List ℚ := a.data.getD []

/-- Per-track gain applied during mixing. -/
def applyGain (samples : List ℚ) (vol : ℚ) : List ℚ := samples.map (fun s => s * vol)

/-- Overlay of two sample buffers: elementwise sum, keeping the longer tail. -/
def overlayAdd : List ℚ → List ℚ → List ℚ
  | [], ys => ys
  | x :: xs, [] => x :: xs
  | x :: xs, y :: ys => (x + y) :: overlayAdd xs ys

/-- Modelled from the spec: the implementation of
`lib.audio.transform.AudioMixer` is not among the sources (only its tests
are). Per §4.4 and §7, the fixed five-track mixer skips empty tracks, applies
per-track gain, and raises a value error when no non-empty track input is
provided; the emptiness check happens on the references themselves, before
any track is decoded. -/
def audioMixerProcess (t1 t2 t3 t4 t5 : AudioRefM) (v1 v2 v3 v4 v5 : ℚ) :
    Except String (List ℚ) :=
  let tracks := [(t1, v1), (t2, v2), (t3, v3), (t4, v4), (t5, v5)].filter
    (fun tv => !tv.1.is_empty)
  if tracks.isEmpty then Except.error "At least one audio track must be provided"
  else Except.ok (tracks.foldl
    (fun acc tv => overlayAdd acc (applyGain (decodeAudio tv.1) tv.2)) [])

/-- An `AudioRef()` with no content. -/
def emptyAudioRef : AudioRefM := ⟨none⟩

/-- Modelled from the spec: the implementation of
`lib.audio.transform.ConcatList` is not among the sources (only its tests
are). Per §4.4 the node concatenates a list of decoded segments and
re-encodes the result; the tests `test_concat_list_empty` and
`test_concat_list_single_file` pin the small-input short-circuit: an empty
list yields an empty `AudioRef` and a singleton yields the same reference,
in both cases with zero decode and zero encode calls through the context.
The result is paired with the number of decode calls and encode calls. -/
def concatListProcess (files : List AudioRefM) : AudioRefM × ℕ × ℕ :=
  if files.length = 0 then (emptyAudioRef, 0, 0)
  else if files.length = 1 then (files.headD emptyAudioRef, 0, 0)
  else (AudioRefM.mk (some (files.map decodeAudio).flatten), files.length, 1)

/- ===================== Theorems ===================== -/

theorem listMax_spec {α : Type} [LinearOrder α] [Zero α] (a : α) (L : List α) :
    a ≤ L.foldl max a ∧ ∀ x ∈ L, x ≤ L.foldl max a := by
  induction L generalizing a with
  | nil => simp
  | cons y ys ih =>
    refine ⟨le_trans (le_max_left a y) (ih (max a y)).1, ?_⟩
    intro x hx
    rcases List.mem_cons.mp hx with h | h
    · exact le_trans (le_of_eq h) (le_trans (le_max_right a y) (ih (max a y)).1)
    · exact (ih (max a y)).2 x h

theorem le_listMax {α : Type} [LinearOrder α] [Zero α] {L : List α} {x : α}
    (hx : x ∈ L) : x ≤ listMax L := by
  cases L with
  | nil => cases hx
  | cons y ys =>
    rcases List.mem_cons.mp hx with h | h
    · exact h ▸ (listMax_spec y ys).1
    · exact (listMax_spec y ys).2 x h

theorem listMin_spec {α : Type} [LinearOrder α] [Zero α] (a : α) (L : List α) :
    L.foldl min a ≤ a ∧ ∀ x ∈ L, L.foldl min a ≤ x := by
  induction L generalizing a with
  | nil => simp
  | cons y ys ih =>
    refine ⟨le_trans (ih (min a y)).1 (min_le_left a y), ?_⟩
    intro x hx
    rcases List.mem_cons.mp hx with h | h
    · exact le_trans (le_trans (ih (min a y)).1 (min_le_right a y)) (le_of_eq h.symm)
    · exact (ih (min a y)).2 x h

theorem listMin_le {α : Type} [LinearOrder α] [Zero α] {L : List α} {x : α}
    (hx : x ∈ L) : listMin L ≤ x := by
  cases L with
  | nil => cases hx
  | cons y ys =>
    rcases List.mem_cons.mp hx with h | h
    · exact h ▸ (listMin_spec y ys).1
    · exact (listMin_spec y ys).2 x h

theorem foldl_max_le {α : Type} [LinearOrder α] {b : α} (a : α) (L : List α)
    (ha : a ≤ b) (hL : ∀ x ∈ L, x ≤ b) : L.foldl max a ≤ b := by
  induction L generalizing a with
  | nil => simpa using ha
  | cons y ys ih =>
    exact ih (max a y) (max_le ha (hL y (List.mem_cons_self y ys)))
      (fun x hx => hL x (List.mem_cons_of_mem y hx))

theorem listMax_le {α : Type} [LinearOrder α] [Zero α] {b : α} {L : List α}
    (h : L ≠ []) (hL : ∀ x ∈ L, x ≤ b) : listMax L ≤ b := by
  cases L with
  | nil => exact absurd rfl h
  | cons y ys =>
    exact foldl_max_le y ys (hL y (List.mem_cons_self y ys))
      (fun x hx => hL x (List.mem_cons_of_mem y hx))

theorem foldl_min_mem {α : Type} [LinearOrder α] (a : α) (L : List α) :
    L.foldl min a ∈ a :: L := by
  induction L generalizing a with
  | nil => simp
  | cons y ys ih =>
    rcases List.mem_cons.mp (ih (min a y)) with h | h
    · rcases min_cases a y with ⟨he, _⟩ | ⟨he, _⟩
      · exact List.mem_cons.mpr (Or.inl (h.trans he))
      · exact List.mem_cons.mpr (Or.inr (List.mem_cons.mpr (Or.inl (h.trans he))))
    · exact List.mem_cons.mpr (Or.inr (List.mem_cons.mpr (Or.inr h)))

theorem listMin_mem {α : Type} [LinearOrder α] [Zero α] {L : List α} (h : L ≠ []) :
    listMin L ∈ L := by
  cases L with
  | nil => exact absurd rfl h
  | cons y ys => simpa [listMin] using foldl_min_mem y ys

/-- C2 counterexample: the claim says every spectral analysis node rejects an
FFT size outside [128, 8192], but `ChromaSTFT.n_fft` (declared `ge=0`, no upper
bound) accepts 64, and `STFT.n_fft` accepts 10000. -/
theorem fft_bounds_not_uniform :
    validateField chromaSTFT_n_fft 64 = some 64 ∧
    validateField stft_n_fft 10000 = some 10000 ∧
    ¬(128 ≤ (64 : ℤ) ∧ (64 : ℤ) ≤ 8192) ∧
    ¬(128 ≤ (10000 : ℤ) ∧ (10000 : ℤ) ≤ 8192) := by
  decide

/-- C2 (amended): only `SpectralCentroid.n_fft` is constrained to [128, 8192];
`ChromaSTFT.n_fft` and `STFT.n_fft` only require a non-negative value, so
construction succeeds for any integer FFT size that is non-negative. -/
theorem fft_bounds_per_node (n : ℤ) :
    ((validateField spectralCentroid_n_fft n).isSome ↔ 128 ≤ n ∧ n ≤ 8192) ∧
    ((validateField chromaSTFT_n_fft n).isSome ↔ 0 ≤ n) ∧
    ((validateField stft_n_fft n).isSome ↔ 0 ≤ n) := by
  refine ⟨?_, ?_, ?_⟩ <;>
    simp [validateField, withinBounds, spectralCentroid_n_fft, chromaSTFT_n_fft,
      stft_n_fft]

/-- C8: for a nonempty spectrogram tensor, every value of the normalized
array lies in [0, 255]; a constant tensor normalizes to all zeros (the
division branch is skipped because the shifted maximum is 0, so no division
by zero occurs); and every pixel of the resulting image array lies in
[0, 255]. -/
theorem plotSpectrogram_pixels_safe (spec : List ℚ) (h : spec ≠ []) :
    (∀ y ∈ plotNormalize spec, 0 ≤ y ∧ y ≤ 255) ∧
    ((∀ x ∈ spec, x = spec.headD 0) → plotNormalize spec = List.replicate spec.length 0) ∧
    (∀ p ∈ specImage spec, 0 ≤ p ∧ p ≤ 255) := by
  have hshift : ∀ s ∈ spec.map (fun x => x - listMin spec),
      0 ≤ s ∧ s ≤ listMax (spec.map (fun x => x - listMin spec)) := by
    intro s hs
    rcases List.mem_map.mp hs with ⟨x, hx, rfl⟩
    exact ⟨sub_nonneg.mpr (listMin_le hx), le_listMax hs⟩
  have hbounds : ∀ y ∈ plotNormalize spec, 0 ≤ y ∧ y ≤ 255 := by
    intro y hy
    unfold plotNormalize at hy
    by_cases h0 : 0 < listMax (spec.map (fun x => x - listMin spec))
    · simp only [if_pos h0] at hy
      rcases List.mem_map.mp hy with ⟨s, hs, rfl⟩
      rcases hshift s hs with ⟨hs0, hsmx⟩
      constructor
      · positivity
      · have hdiv : s / listMax (spec.map (fun x => x - listMin spec)) ≤ 1 :=
          (div_le_one h0).mpr hsmx
        nlinarith
    · simp only [if_neg h0] at hy
      rcases hshift y hy with ⟨hy0, hymx⟩
      have hy00 : y = 0 := le_antisymm (hymx.trans (not_lt.mp h0)) hy0
      simp [hy00]
  refine ⟨hbounds, ?_, ?_⟩
  · intro hconst
    have hmem := listMin_mem (L := spec) h
    have hmn : listMin spec = spec.headD 0 := hconst _ hmem
    have hall0 : ∀ s ∈ spec.map (fun x => x - listMin spec), s = 0 := by
      intro s hs
      rcases List.mem_map.mp hs with ⟨x, hx, rfl⟩
      rw [hconst x hx, hmn, sub_self]
    have hshift0 : spec.map (fun x => x - listMin spec) =
        List.replicate spec.length 0 := by
      calc spec.map (fun x => x - listMin spec)
          = List.replicate (spec.map (fun x => x - listMin spec)).length 0 :=
            List.eq_replicate_of_mem hall0
        _ = List.replicate spec.length 0 := by rw [List.length_map]
    have hne : List.replicate spec.length (0 : ℚ) ≠ [] := by
      cases spec with
      | nil => exact absurd rfl h
      | cons a l => simp [List.replicate]
    have hmax0 : listMax (List.replicate spec.length (0 : ℚ)) = 0 := by
      refine le_antisymm (listMax_le hne ?_) ?_
      · intro x hx
        exact le_of_eq (List.eq_of_mem_replicate hx)
      · cases spec with
        | nil => exact absurd rfl h
        | cons a l => exact le_listMax (by simp [List.replicate])
    have hplot : plotNormalize spec =
        (if 0 < listMax (spec.map (fun x => x - listMin spec)) then
          (spec.map (fun x => x - listMin spec)).map
            (fun x => x / listMax (spec.map (fun x => x - listMin spec)) * 255)
        else spec.map (fun x => x - listMin spec)) := rfl
    rw [hplot, hshift0, hmax0]
    simp
  · intro p hp
    rcases List.mem_map.mp hp with ⟨y, hy, rfl⟩
    rcases hbounds y hy with ⟨hy0, hy255⟩
    have hf0 : 0 ≤ ⌊y⌋ := Int.le_floor.mpr (by exact_mod_cast hy0)
    have hf255 : ⌊y⌋ ≤ 255 := by
      have hmono := Int.floor_le_floor (α := ℚ) hy255
      simpa using hmono
    unfold castUint8
    rw [Int.emod_eq_of_lt hf0 (by omega)]
    exact ⟨hf0, hf255⟩

/-- C8 witness: the constant spectrogram [3, 3] satisfies the hypothesis and
normalizes to all zeros with in-range pixels. -/
theorem plotSpectrogram_pixels_safe_witness :
    ([3, 3] : List ℚ) ≠ [] ∧
    ((∀ y ∈ plotNormalize [3, 3], 0 ≤ y ∧ y ≤ 255) ∧
      ((∀ x ∈ ([3, 3] : List ℚ), x = ([3, 3] : List ℚ).headD 0) →
        plotNormalize [3, 3] = List.replicate ([3, 3] : List ℚ).length 0) ∧
      (∀ p ∈ specImage [3, 3], 0 ≤ p ∧ p ≤ 255)) :=
  ⟨by decide, plotSpectrogram_pixels_safe [3, 3] (by decide)⟩

/-- C9: every entry of the array returned by `STFT.process` is the absolute
value of an entry of the complex STFT matrix, hence real-valued (by the type
of `stftAbs`) and non-negative. -/
theorem stft_result_nonneg (M : List (List ℂ)) :
    ∀ row ∈ stftAbs M, ∀ x ∈ row, 0 ≤ x := by
  intro row hrow x hx
  rcases List.mem_map.mp hrow with ⟨r, hr, rfl⟩
  rcases List.mem_map.mp hx with ⟨z, hz, rfl⟩
  exact AbsoluteValue.nonneg Complex.abs z

/-- C9 witness: the 1×1 matrix [[3 + 4i]] maps to a non-negative entry. -/
theorem stft_result_nonneg_witness :
    [Complex.abs ⟨3, 4⟩] ∈ stftAbs [[⟨3, 4⟩]] ∧
    Complex.abs ⟨3, 4⟩ ∈ [Complex.abs ⟨3, 4⟩] ∧
    0 ≤ Complex.abs ⟨3, 4⟩ :=
  ⟨by simp [stftAbs], by simp,
    stft_result_nonneg [[⟨3, 4⟩]] [Complex.abs ⟨3, 4⟩] (by simp [stftAbs])
      (Complex.abs ⟨3, 4⟩) (by simp)⟩

/-- C6: on a stereo input, `StereoToMono.process` fails with a value error
exactly when the method is not one of average, left, right; a recognized
method returns a mono buffer and raises no error. -/
theorem stereoToMono_error_iff (l r : List ℚ) (m : String) :
    exceptIsOk (stereoToMono l r m) = false ↔
      (m ≠ "average" ∧ m ≠ "left" ∧ m ≠ "right") := by
  by_cases h1 : m = "average" <;> by_cases h2 : m = "left" <;>
    by_cases h3 : m = "right" <;>
    simp [stereoToMono, exceptIsOk, h1, h2, h3]

/-- C7: `AudioMixer.process` fails with a value error exactly when all five
track references are empty; with at least one non-empty track it returns a
mixed buffer. The emptiness test happens on the references, so the error is
raised before any decoding. -/
theorem audioMixer_error_iff (t1 t2 t3 t4 t5 : AudioRefM) (v1 v2 v3 v4 v5 : ℚ) :
    exceptIsOk (audioMixerProcess t1 t2 t3 t4 t5 v1 v2 v3 v4 v5) = false ↔
      (t1.is_empty = true ∧ t2.is_empty = true ∧ t3.is_empty = true ∧
        t4.is_empty = true ∧ t5.is_empty = true) := by
  cases h1 : t1.is_empty <;> cases h2 : t2.is_empty <;> cases h3 : t3.is_empty <;>
    cases h4 : t4.is_empty <;> cases h5 : t5.is_empty <;>
    simp [audioMixerProcess, exceptIsOk, h1, h2, h3, h4, h5, List.filter]

/-- C10: `ConcatList.process` short-circuits small inputs: the empty list
yields the empty `AudioRef` and a singleton list yields that same reference,
in both cases with zero decode calls and zero encode calls. -/
theorem concatList_short_circuit :
    concatListProcess [] = (emptyAudioRef, 0, 0) ∧
    ∀ a : AudioRefM, concatListProcess [a] = (a, 0, 0) := by
  constructor
  · rfl
  · intro a
    simp [concatListProcess]

/-- C3: for ascending-sorted onsets, the segmenter first builds exactly one
raw slice per boundary (between consecutive boundaries, the last one running
to the end of the buffer) — which satisfies the claimed
`len(boundaries)` or `len(boundaries)+1` count — and returns exactly the raw
slices whose duration in seconds is at least `min_segment_length`. -/
theorem segmentAudioByOnsets_spec (samples : List ℤ) (sr : ℕ) (onsets : List ℚ)
    (minLen : ℚ) (_hsorted : onsets.Sorted (· ≤ ·)) :
    ((rawSegments samples sr onsets).length = onsets.length ∨
      (rawSegments samples sr onsets).length = onsets.length + 1) ∧
    (∀ seg, seg ∈ segmentAudioByOnsets samples sr onsets minLen ↔
      (seg ∈ rawSegments samples sr onsets ∧ minLen ≤ segmentDuration sr seg)) := by
  refine ⟨Or.inl ?_, ?_⟩
  · simp [rawSegments]
  · intro seg
    simp [segmentAudioByOnsets, List.mem_filter]

/-- C3 witness: the test onsets [0.5, 1.0, 1.5, 2.0] on a 10-sample buffer at
sample rate 4. -/
theorem segmentAudioByOnsets_spec_witness :
    ([1/2, 1, 3/2, 2] : List ℚ).Sorted (· ≤ ·) ∧
    (((rawSegments [0, 1, 2, 3, 4, 5, 6, 7, 8, 9] 4 [1/2, 1, 3/2, 2]).length =
        ([1/2, 1, 3/2, 2] : List ℚ).length ∨
      (rawSegments [0, 1, 2, 3, 4, 5, 6, 7, 8, 9] 4 [1/2, 1, 3/2, 2]).length =
        ([1/2, 1, 3/2, 2] : List ℚ).length + 1) ∧
    (∀ seg, seg ∈ segmentAudioByOnsets [0, 1, 2, 3, 4, 5, 6, 7, 8, 9] 4
        [1/2, 1, 3/2, 2] (1/4) ↔
      (seg ∈ rawSegments [0, 1, 2, 3, 4, 5, 6, 7, 8, 9] 4 [1/2, 1, 3/2, 2] ∧
        1/4 ≤ segmentDuration 4 seg))) :=
  ⟨by norm_num [List.sorted_cons],
    segmentAudioByOnsets_spec [0, 1, 2, 3, 4, 5, 6, 7, 8, 9] 4 [1/2, 1, 3/2, 2]
      (1/4) (by norm_num [List.sorted_cons])⟩

theorem envelopeGain_length (n sr : ℕ) (a d r p s : ℚ) :
    (envelopeGain n sr a d r p s).length = n := by
  unfold envelopeGain
  rw [List.length_take, List.length_append, List.length_replicate]
  omega

/-- C4: the buffer returned by `Envelope.process` has exactly the length of
the input buffer, for every choice of attack, decay and release times. -/
theorem envelope_output_length (samples : List ℚ) (sr : ℕ)
    (attack decay release peak sustain : ℚ) :
    (envelopeProcess samples sr attack decay release peak sustain).length =
      samples.length := by
  unfold envelopeProcess
  rw [List.length_zipWith, envelopeGain_length]
  omega

theorem affine_between (a b t : ℚ) (h0 : 0 ≤ t) (h1 : t ≤ 1) :
    min a b ≤ a + (b - a) * t ∧ a + (b - a) * t ≤ max a b := by
  rcases le_total a b with hab | hab
  · rw [min_eq_left hab, max_eq_right hab]
    constructor <;> nlinarith
  · rw [min_eq_right hab, max_eq_left hab]
    constructor <;> nlinarith

theorem ramp_mem_bounds {a b : ℚ} {k : ℕ} :
    ∀ x ∈ ramp a b k, min a b ≤ x ∧ x ≤ max a b := by
  intro x hx
  unfold ramp at hx
  rcases List.mem_map.mp hx with ⟨i, hi, rfl⟩
  have hik := List.mem_range.mp hi
  by_cases hk : k ≤ 1
  · rw [if_pos hk]
    exact ⟨min_le_left a b, le_max_left a b⟩
  · push_neg at hk
    have hk2 : (2 : ℚ) ≤ (k : ℚ) := by exact_mod_cast hk
    have hkpos : (0 : ℚ) < (k : ℚ) - 1 := by linarith
    have ht0 : 0 ≤ (i : ℚ) / ((k : ℚ) - 1) := by positivity
    have ht1 : (i : ℚ) / ((k : ℚ) - 1) ≤ 1 := by
      rw [div_le_one hkpos]
      have : (i : ℚ) + 1 ≤ (k : ℚ) := by exact_mod_cast hik
      linarith
    rw [if_neg (by omega), mul_div_assoc]
    exact affine_between a b _ ht0 ht1

theorem ramp_length (a b : ℚ) (k : ℕ) : (ramp a b k).length = k := by
  unfold ramp
  rw [List.length_map, List.length_range]

theorem ramp_head (a b : ℚ) (k : ℕ) (hk : 1 ≤ k) : (ramp a b k).headD 0 = a := by
  unfold ramp
  obtain ⟨j, rfl⟩ : ∃ j, k = j + 1 := ⟨k - 1, by omega⟩
  rw [List.range_succ_eq_map]
  simp only [List.map_cons, List.headD_cons]
  split <;> simp

theorem getLastD_mem_or {α : Type} (l : List α) (d : α) :
    l.getLastD d = d ∨ l.getLastD d ∈ l := by
  induction l generalizing d with
  | nil => exact Or.inl rfl
  | cons x xs ih =>
    rcases ih x with h | h
    · right
      rw [List.getLastD_cons, h]
      exact List.mem_cons_self x xs
    · right
      rw [List.getLastD_cons]
      exact List.mem_cons_of_mem x h

theorem envelopeCore_mem_bounds (n sr : ℕ) (atk dec rel pk su : ℚ)
    (hsu0 : 0 ≤ su) (hsup : su ≤ pk) :
    ∀ g ∈ envelopeCore n sr atk dec rel pk su, 0 ≤ g ∧ g ≤ pk := by
  intro g hg
  have hpk0 : (0 : ℚ) ≤ pk := le_trans hsu0 hsup
  unfold envelopeCore at hg
  rcases List.mem_append.mp hg with hg12 | hg3
  · rcases List.mem_append.mp hg12 with hg1 | hg2
    · rcases ramp_mem_bounds g hg1 with ⟨hlo, hhi⟩
      rw [min_eq_left hpk0] at hlo
      rw [max_eq_right hpk0] at hhi
      exact ⟨hlo, hhi⟩
    · rcases ramp_mem_bounds g hg2 with ⟨hlo, hhi⟩
      rw [min_eq_right hsup] at hlo
      rw [max_eq_left hsup] at hhi
      exact ⟨le_trans hsu0 hlo, hhi⟩
  · rcases ramp_mem_bounds g hg3 with ⟨hlo, hhi⟩
    rw [min_eq_right hsu0] at hlo
    rw [max_eq_left hsu0] at hhi
    exact ⟨hlo, le_trans hhi hsup⟩

/-- C5: with a sustain-equivalent level between 0 and the peak, a non-empty
attack phase and a non-empty buffer, every sample of the envelope gain lies
in [0, peak_amplitude], the gain at the first sample is 0, and when the
concatenated phases are shorter than the buffer every remaining sample holds
the last computed gain. -/
theorem envelope_gain_bounds (n sr : ℕ) (atk dec rel pk su : ℚ)
    (hsu0 : 0 ≤ su) (hsup : su ≤ pk)
    (hatk : 1 ≤ phaseLen atk sr n) (hn : 1 ≤ n) :
    (∀ g ∈ envelopeGain n sr atk dec rel pk su, 0 ≤ g ∧ g ≤ pk) ∧
    (envelopeGain n sr atk dec rel pk su).headD 0 = 0 ∧
    ((envelopeCore n sr atk dec rel pk su).length < n →
      ∀ i, (envelopeCore n sr atk dec rel pk su).length ≤ i → i < n →
        (envelopeGain n sr atk dec rel pk su).getD i 0 =
          (envelopeCore n sr atk dec rel pk su).getLastD 0) := by
  have hpk0 : (0 : ℚ) ≤ pk := le_trans hsu0 hsup
  refine ⟨?_, ?_, ?_⟩
  · intro g hg
    unfold envelopeGain at hg
    have hg' := List.take_subset _ _ hg
    rcases List.mem_append.mp hg' with hcore | hrep
    · exact envelopeCore_mem_bounds n sr atk dec rel pk su hsu0 hsup g hcore
    · have hgL := List.eq_of_mem_replicate hrep
      rcases getLastD_mem_or (envelopeCore n sr atk dec rel pk su) 0 with h0 | hmem
      · rw [hgL, h0]
        exact ⟨le_refl 0, hpk0⟩
      · rw [hgL]
        exact envelopeCore_mem_bounds n sr atk dec rel pk su hsu0 hsup _ hmem
  · have hne : ramp 0 pk (phaseLen atk sr n) ≠ [] := by
      intro hnil
      have hl := ramp_length 0 pk (phaseLen atk sr n)
      rw [hnil] at hl
      simp at hl
      omega
    obtain ⟨x, xs, hxxs⟩ := List.exists_cons_of_ne_nil hne
    have hx0 : x = 0 := by
      have hh := ramp_head 0 pk (phaseLen atk sr n) hatk
      rw [hxxs] at hh
      simpa using hh
    obtain ⟨m, hm⟩ : ∃ m, n = m + 1 := ⟨n - 1, by omega⟩
    unfold envelopeGain envelopeCore
    rw [hxxs, hx0, hm]
    simp [List.cons_append]
  · intro hlt i hi hin
    unfold envelopeGain
    rw [List.getD_eq_getElem?_getD, List.getElem?_take, if_pos hin,
      List.getElem?_append_right hi, List.getElem?_replicate,
      if_pos (by omega : i - (envelopeCore n sr atk dec rel pk su).length <
        n - (envelopeCore n sr atk dec rel pk su).length)]
    rfl

/-- C5 witness: a 6-sample buffer at sample rate 10 with attack 0.2 s, decay
0.1 s, release 0.1 s, peak 1 and sustain-equivalent 1/2; the phases cover 4
samples and the last two samples hold the final gain. -/
theorem envelope_gain_bounds_witness :
    (0 ≤ (1 : ℚ)/2 ∧ (1 : ℚ)/2 ≤ 1 ∧ 1 ≤ phaseLen (1/5) 10 6 ∧ 1 ≤ 6) ∧
    ((∀ g ∈ envelopeGain 6 10 (1/5) (1/10) (1/10) 1 (1/2), 0 ≤ g ∧ g ≤ 1) ∧
    (envelopeGain 6 10 (1/5) (1/10) (1/10) 1 (1/2)).headD 0 = 0 ∧
    ((envelopeCore 6 10 (1/5) (1/10) (1/10) 1 (1/2)).length < 6 →
      ∀ i, (envelopeCore 6 10 (1/5) (1/10) (1/10) 1 (1/2)).length ≤ i → i < 6 →
        (envelopeGain 6 10 (1/5) (1/10) (1/10) 1 (1/2)).getD i 0 =
          (envelopeCore 6 10 (1/5) (1/10) (1/10) 1 (1/2)).getLastD 0)) :=
  ⟨⟨by norm_num, by norm_num, by norm_num [phaseLen], by norm_num⟩,
    envelope_gain_bounds 6 10 (1/5) (1/10) (1/10) 1 (1/2)
      (by norm_num) (by norm_num) (by norm_num [phaseLen]) (by norm_num)⟩

theorem foldl_max_mem {α : Type} [LinearOrder α] (a : α) (L : List α) :
    L.foldl max a ∈ a :: L := by
  induction L generalizing a with
  | nil => simp
  | cons y ys ih =>
    rcases List.mem_cons.mp (ih (max a y)) with h | h
    · rcases max_cases a y with ⟨he, _⟩ | ⟨he, _⟩
      · exact List.mem_cons.mpr (Or.inl (h.trans he))
      · exact List.mem_cons.mpr (Or.inr (List.mem_cons.mpr (Or.inl (h.trans he))))
    · exact List.mem_cons.mpr (Or.inr (List.mem_cons.mpr (Or.inr h)))

theorem listMax_mem {α : Type} [LinearOrder α] [Zero α] {L : List α} (h : L ≠ []) :
    listMax L ∈ L := by
  cases L with
  | nil => exact absurd rfl h
  | cons y ys => simpa [listMax] using foldl_max_mem y ys

theorem dbToAmplitudeElem_rpow (v : ℝ) :
    dbToAmplitudeElem v = (10 : ℝ) ^ ((1 / 20) * v) := by
  unfold dbToAmplitudeElem dbToPowerElem
  rw [one_mul, ← Real.rpow_mul (by norm_num : (0 : ℝ) ≤ 10)]
  congr 1
  ring

theorem roundtrip_elem (u : ℝ) (hu : 0 < u) :
    dbToAmplitudeElem (20 * log10 u) = u := by
  rw [dbToAmplitudeElem_rpow]
  have h : (1 / 20 : ℝ) * (20 * log10 u) = log10 u := by ring
  rw [h]
  unfold log10
  exact Real.rpow_logb (by norm_num) (by norm_num) hu

theorem roundtrip_eq_div_listMax (S : List ℝ) (hne : S ≠ [])
    (hbound : ∀ x ∈ S, 1 / 100000 ≤ x ∧ listMax S / 10000 ≤ x) :
    dbToAmplitude (amplitudeToDb S) = S.map (fun x => x / listMax S) := by
  have hMmem : listMax S ∈ S := listMax_mem hne
  have hM1 : 1 / 100000 ≤ listMax S := (hbound _ hMmem).1
  have hM : 0 < listMax S := lt_of_lt_of_le (by norm_num) hM1
  have hxpos : ∀ x ∈ S, 0 < x := fun x hx =>
    lt_of_lt_of_le (by norm_num) (hbound x hx).1
  have hxM : ∀ x ∈ S, x ≤ listMax S := fun x hx => le_listMax hx
  have habs : S.map (fun x => |x|) = S := by
    have habs1 : ∀ x ∈ S, |x| = x := fun x hx => abs_of_nonneg (hxpos x hx).le
    calc S.map (fun x => |x|) = S.map id := List.map_congr_left habs1
      _ = S := List.map_id S
  have hlog : ∀ x ∈ S,
      powerToDbElem ((1 / 100000) ^ 2) (listMax S ^ 2) ((|x|) ^ 2) =
        20 * log10 (x / listMax S) := by
    intro x hx
    have hx0 := hxpos x hx
    have hx1 := (hbound x hx).1
    have habsx : |x| = x := abs_of_nonneg hx0.le
    unfold powerToDbElem
    rw [habsx,
      max_eq_right (pow_le_pow_left₀ (by norm_num : (0 : ℝ) ≤ 1 / 100000) hx1 2),
      max_eq_right (pow_le_pow_left₀ (by norm_num : (0 : ℝ) ≤ 1 / 100000) hM1 2)]
    unfold log10
    rw [Real.logb_pow, Real.logb_pow, Real.logb_div hx0.ne' hM.ne']
    push_cast
    ring
  have hinner : (S.map (fun x => (|x|) ^ 2)).map
      (powerToDbElem ((1 / 100000) ^ 2) (listMax S ^ 2)) =
      S.map (fun x => 20 * log10 (x / listMax S)) := by
    rw [List.map_map]
    exact List.map_congr_left (fun x hx => hlog x hx)
  have hne2 : S.map (fun x => 20 * log10 (x / listMax S)) ≠ [] := by
    cases S with
    | nil => exact absurd rfl hne
    | cons a l => simp
  have hm : listMax (S.map (fun x => 20 * log10 (x / listMax S))) = 0 := by
    have hmem0 : (0 : ℝ) ∈ S.map (fun x => 20 * log10 (x / listMax S)) := by
      refine List.mem_map.mpr ⟨listMax S, hMmem, ?_⟩
      rw [div_self hM.ne']
      simp [log10]
    refine le_antisymm (listMax_le hne2 ?_) (le_listMax hmem0)
    intro v hv
    rcases List.mem_map.mp hv with ⟨x, hx, rfl⟩
    have h1 : x / listMax S ≤ 1 := (div_le_one hM).mpr (hxM x hx)
    have h0 : 0 ≤ x / listMax S := div_nonneg (hxpos x hx).le hM.le
    have hnp := Real.logb_nonpos (b := 10) (by norm_num) h0 h1
    simp only [log10]
    linarith
  have hclip : ∀ x ∈ S,
      max (20 * log10 (x / listMax S)) (0 - 80) = 20 * log10 (x / listMax S) := by
    intro x hx
    apply max_eq_left
    have hxq := (hbound x hx).2
    have h104 : (10 : ℝ) ^ (-4 : ℝ) = 1 / 10000 := by
      rw [Real.rpow_neg (by norm_num : (0 : ℝ) ≤ 10),
        show ((4 : ℝ)) = ((4 : ℕ) : ℝ) by norm_num, Real.rpow_natCast]
      norm_num
    have hdiv : (10 : ℝ) ^ (-4 : ℝ) ≤ x / listMax S := by
      rw [h104, div_le_div_iff₀ (by norm_num : (0 : ℝ) < 10000) hM]
      nlinarith
    have hlogge : (-4 : ℝ) ≤ Real.logb 10 (x / listMax S) :=
      (Real.le_logb_iff_rpow_le (by norm_num : (1 : ℝ) < 10)
        (div_pos (hxpos x hx) hM)).mpr hdiv
    simp only [log10]
    linarith
  unfold dbToAmplitude amplitudeToDb powerToDbList
  rw [habs, hinner, hm, List.map_map, List.map_map]
  apply List.map_congr_left
  intro x hx
  show dbToAmplitudeElem (max (20 * log10 (x / listMax S)) (0 - 80)) = x / listMax S
  rw [hclip x hx]
  exact roundtrip_elem (x / listMax S) (div_pos (hxpos x hx) hM)

/-- C1 counterexample: on the non-negative magnitude array [1, 2] the
round trip amplitude→dB→amplitude returns [1/2, 1], not values within
numerical tolerance of [1, 2]: `amplitude_to_db` is called with
`ref=np.max` while `db_to_amplitude` uses `ref=1`, so the round trip
divides by the maximum; the entry at index 1 is off by 1. -/
theorem amplitude_db_roundtrip_not_identity :
    dbToAmplitude (amplitudeToDb [1, 2]) = [1 / 2, 1] ∧
    ([1 / 2, 1] : List ℝ) ≠ [1, 2] ∧
    (1 : ℝ) ≤ |([1 / 2, 1] : List ℝ).getD 1 0 - ([1, 2] : List ℝ).getD 1 0| := by
  have hmax : listMax ([1, 2] : List ℝ) = 2 := by
    show List.foldl max 1 [2] = 2
    simp only [List.foldl]
    exact max_eq_right (by norm_num)
  have hb : ∀ x ∈ ([1, 2] : List ℝ),
      1 / 100000 ≤ x ∧ listMax ([1, 2] : List ℝ) / 10000 ≤ x := by
    intro x hx
    rw [hmax]
    rcases List.mem_cons.mp hx with rfl | hx2
    · norm_num
    · rcases List.mem_cons.mp hx2 with rfl | hx3
      · norm_num
      · cases hx3
  have h := roundtrip_eq_div_listMax [1, 2] (by simp) hb
  rw [hmax] at h
  refine ⟨?_, ?_, ?_⟩
  · rw [h]
    norm_num
  · simp only [ne_eq, List.cons.injEq, and_true, not_and]
    norm_num
  · simp only [List.getD, List.getElem?_cons_succ, List.getElem?_cons_zero,
      Option.getD_some]
    norm_num

/-- C1 (amended): the round trip amplitude→dB→amplitude does not return the
original array but the original array divided by its maximum, because
`AmplitudeToDB` uses `ref=np.max` while `DBToAmplitude` inverts against
`ref=1`. For arrays whose entries are at least the `amin` floor (1e-5) and at
least 1e-4 of the maximum (so neither the `amin` floor nor the 80 dB
`top_db` floor engages), the round trip is exactly `x / max(S)` entrywise;
it reproduces the original only when the maximum is 1. -/
theorem amplitude_db_roundtrip_normalized (S : List ℝ) (hne : S ≠ [])
    (hbound : ∀ x ∈ S, 1 / 100000 ≤ x ∧ listMax S / 10000 ≤ x) :
    dbToAmplitude (amplitudeToDb S) = S.map (fun x => x / listMax S) :=
  roundtrip_eq_div_listMax S hne hbound

/-- C1 witness: the amended statement evaluated on [1, 2]. -/
theorem amplitude_db_roundtrip_normalized_witness :
    (([1, 2] : List ℝ) ≠ [] ∧
      ∀ x ∈ ([1, 2] : List ℝ),
        1 / 100000 ≤ x ∧ listMax ([1, 2] : List ℝ) / 10000 ≤ x) ∧
    dbToAmplitude (amplitudeToDb [1, 2]) =
      ([1, 2] : List ℝ).map (fun x => x / listMax [1, 2]) := by
  have hmax : listMax ([1, 2] : List ℝ) = 2 := by
    show List.foldl max 1 [2] = 2
    simp only [List.foldl]
    exact max_eq_right (by norm_num)
  have hb : ∀ x ∈ ([1, 2] : List ℝ),
      1 / 100000 ≤ x ∧ listMax ([1, 2] : List ℝ) / 10000 ≤ x := by
    intro x hx
    rw [hmax]
    rcases List.mem_cons.mp hx with rfl | hx2
    · norm_num
    · rcases List.mem_cons.mp hx2 with rfl | hx3
      · norm_num
      · cases hx3
  exact ⟨⟨by simp, hb⟩,
    amplitude_db_roundtrip_normalized [1, 2] (by simp) hb⟩
